import Mathlib

/-!
Shallow embedding of the DiamondPad core analytical engine
(tier/rewards engine, bundle detector, wallet relationship graph),
translated from the TypeScript sources, together with theorems
settling the specification claims.

Modelling conventions:
* JS numbers are modelled as `ℚ` (the arithmetic relevant to the claims
  is exact); counters and confidence scores, which only ever hold
  nonnegative integers in the source, are modelled as `ℕ`.
* `Date` values are modelled as epoch milliseconds (`ℚ`).
* The JS value `Infinity` (used for `DIAMOND.maxDays` and for
  `daysSinceLastClaim` on a first claim) is modelled as `Option ℚ`
  with `none` standing for `Infinity`; the comparisons that touch it
  are spelled out with the semantics `x >= Infinity = false` and
  `Infinity >= c = true` for finite `x`, `c`.
* JS `Map`/`Set` are modelled as association lists / duplicate-free
  lists in insertion order.
-/

/-! ### Types and configuration (src/types.ts) -/

/-- Diamond rank tiers, from `DiamondRank` in the core types. -/
inductive DiamondRank where
  | Paper
  | Bronze
  | Silver
  | Gold
  | Platinum
  | Diamond
deriving DecidableEq, Repr

/-- One entry of `DIAMOND_CONFIG.MULTIPLIERS`; `maxDays = none` models
the JS value `Infinity` used for the `DIAMOND` entry. -/
structure TierConfig where
  maxDays : Option ℚ
  multiplier : ℚ
deriving DecidableEq, Repr

/-- The `MULTIPLIERS` table of `DIAMOND_CONFIG`. -/
structure MultipliersConfig where
  PAPER : TierConfig
  BRONZE : TierConfig
  SILVER : TierConfig
  GOLD : TierConfig
  PLATINUM : TierConfig
  DIAMOND : TierConfig

/-- `DIAMOND_CONFIG.MULTIPLIERS` from src/types.ts. -/
def MULTIPLIERS : MultipliersConfig :=
  { PAPER := ⟨some 7, 1⟩
    BRONZE := ⟨some 30, 3/2⟩
    SILVER := ⟨some 60, 2⟩
    GOLD := ⟨some 90, 5/2⟩
    PLATINUM := ⟨some 180, 3⟩
    DIAMOND := ⟨none, 7/2⟩ }

/-- Remaining scalar fields of `DIAMOND_CONFIG` used by the core. -/
def BUNDLE_CONFIDENCE_THRESHOLD : ℕ := 70
def SAME_BLOCK_THRESHOLD : ℕ := 3
def REWARDS_CLAIM_COOLDOWN_DAYS : ℚ := 7
def BUNDLER_REWARD_DELAY_DAYS : ℚ := 30
def BUNDLER_REWARD_REDUCTION : ℚ := 1/2

/-- The JS comparison `holdDays >= maxDays` where `maxDays` may be
`Infinity` (`none`): a finite number is never `>=` Infinity. -/
def geMaxDays (holdDays : ℚ) (maxDays : Option ℚ) : Bool :=
  match maxDays with
  | some m => decide (m ≤ holdDays)
  | none => false

/-! ### Tier and rewards engine (src/rewards/diamond.ts) -/

/-- `DiamondRewardsCalculator.getDiamondRank`: compares `holdDays`
against each tier's `maxDays` field, high tier first.  Note that
`MULTIPLIERS.DIAMOND.maxDays` is `Infinity`. -/
def getDiamondRank (holdDays : ℚ) : DiamondRank :=
  if geMaxDays holdDays MULTIPLIERS.DIAMOND.maxDays then .Diamond
  else if geMaxDays holdDays MULTIPLIERS.PLATINUM.maxDays then .Platinum
  else if geMaxDays holdDays MULTIPLIERS.GOLD.maxDays then .Gold
  else if geMaxDays holdDays MULTIPLIERS.SILVER.maxDays then .Silver
  else if geMaxDays holdDays MULTIPLIERS.BRONZE.maxDays then .Bronze
  else .Paper

/-- `DiamondRewardsCalculator.getMultiplier`: compares `holdDays`
against the literal thresholds 180, 90, 60, 30, 7. -/
def getMultiplier (holdDays : ℚ) : ℚ :=
  if 180 ≤ holdDays then MULTIPLIERS.DIAMOND.multiplier
  else if 90 ≤ holdDays then MULTIPLIERS.PLATINUM.multiplier
  else if 60 ≤ holdDays then MULTIPLIERS.GOLD.multiplier
  else if 30 ≤ holdDays then MULTIPLIERS.SILVER.multiplier
  else if 7 ≤ holdDays then MULTIPLIERS.BRONZE.multiplier
  else MULTIPLIERS.PAPER.multiplier

/-- `Holder` from the core types (Date fields as epoch millis). -/
structure Holder where
  wallet : String
  launchId : String
  balance : ℚ
  costBasis : ℚ
  firstBuyAt : ℚ
  lastActivityAt : ℚ
  holdDurationDays : ℚ
  diamondMultiplier : ℚ
  rewardsAccrued : ℚ
  rewardsClaimed : ℚ
  diamondRank : DiamondRank
  globalHolderScore : ℚ

/-- `RewardPool` from src/rewards/diamond.ts. -/
structure RewardPool where
  launchId : String
  totalPool : ℚ
  distributed : ℚ
  remaining : ℚ
  lastDistributionAt : ℚ

/-- `HolderRewards` from the core types. -/
structure HolderRewards where
  wallet : String
  launchId : String
  baseRewards : ℚ
  diamondBonus : ℚ
  loyaltyBonus : ℚ
  totalRewards : ℚ
  holdMultiplier : ℚ
  loyaltyMultiplier : ℚ
  claimable : Bool
  nextClaimAt : Option ℚ

/-- `DiamondRewardsCalculator.calculateRewards`.  `now` stands for
`Date.now()`.  `daysSinceLastClaim` is `Infinity` (`none`) when
`rewardsClaimed` is not positive, and `Infinity >= cooldown` is true. -/
def calculateRewards (holder : Holder) (rewardPool : RewardPool) (now : ℚ) :
    HolderRewards :=
  let baseShare := holder.balance / 1000000000
  let baseRewards := baseShare * rewardPool.remaining * (1/100)
  let holdMultiplier := getMultiplier holder.holdDurationDays
  let diamondBonus := baseRewards * (holdMultiplier - 1)
  let loyaltyMultiplier := 1 + holder.globalHolderScore * (1/10)
  let loyaltyBonus := (baseRewards + diamondBonus) * (loyaltyMultiplier - 1)
  let totalRewards := baseRewards + diamondBonus + loyaltyBonus
  let daysSinceLastClaim : Option ℚ :=
    if 0 < holder.rewardsClaimed
    then some ((now - holder.lastActivityAt) / (1000 * 60 * 60 * 24))
    else none
  let claimable :=
    match daysSinceLastClaim with
    | none => true
    | some d => decide (REWARDS_CLAIM_COOLDOWN_DAYS ≤ d)
  let nextClaimAt :=
    if claimable then none
    else some (holder.lastActivityAt + REWARDS_CLAIM_COOLDOWN_DAYS * 24 * 60 * 60 * 1000)
  { wallet := holder.wallet
    launchId := holder.launchId
    baseRewards := baseRewards
    diamondBonus := diamondBonus
    loyaltyBonus := loyaltyBonus
    totalRewards := totalRewards
    holdMultiplier := holdMultiplier
    loyaltyMultiplier := loyaltyMultiplier
    claimable := claimable
    nextClaimAt := nextClaimAt }

/-- One entry of the `holderHistory` argument of
`DiamondRewardsCalculator.calculateGlobalScore`. -/
structure LaunchHistoryEntry where
  launchId : String
  holdDays : ℚ
  profitLoss : ℚ
  wasRugged : Bool
  heldThroughDip : Bool

/-- The per-launch score contribution inside the loop body of
`calculateGlobalScore` (the four sequential `score +=`/`-=` updates). -/
def launchScoreDelta (launch : LaunchHistoryEntry) : ℤ :=
  (if 180 ≤ launch.holdDays then 5
   else if 90 ≤ launch.holdDays then 3
   else if 30 ≤ launch.holdDays then 1
   else 0)
  + (if launch.heldThroughDip then 2 else 0)
  + (if launch.holdDays < 1 ∧ 0 < launch.profitLoss then -1 else 0)
  + (if launch.wasRugged ∧ 7 ≤ launch.holdDays then 1 else 0)

/-- `DiamondRewardsCalculator.calculateGlobalScore`. -/
def calculateGlobalScore (holderHistory : List LaunchHistoryEntry) : ℤ :=
  max 0 (holderHistory.foldl (fun score launch => score + launchScoreDelta launch) 0)

/-! ### Bundle detector (src/detector/bundleDetector.ts) -/

/-- Flag severities from `BundleFlag`. -/
inductive Severity where
  | low
  | medium
  | high
  | critical
deriving DecidableEq, Repr

/-- `BundleFlagType` from the core types. -/
inductive BundleFlagType where
  | same_funding_source
  | same_block_buys
  | similar_amounts
  | new_wallet_cluster
  | timing_pattern
  | known_bundler
  | wash_trading
deriving DecidableEq, Repr

/-- `BundleFlag`; the untyped `evidence` payload is not modelled (no
claim refers to it). -/
structure BundleFlag where
  type : BundleFlagType
  severity : Severity
  description : String
deriving DecidableEq, Repr

/-- `BundleAction` from the core types. -/
inductive BundleAction where
  | none
  | flag
  | delay_rewards
  | reduce_rewards
  | block
deriving DecidableEq, Repr

/-- `BundlePenalty` from the core types. -/
structure BundlePenalty where
  action : BundleAction
  rewardDelayDays : Option ℚ
  rewardReductionPercent : Option ℚ
  reason : String
deriving DecidableEq, Repr

/-- `BundleAnalysis` from the core types. -/
structure BundleAnalysis where
  transactionSignature : String
  launchId : String
  isBundled : Bool
  confidence : ℕ
  flags : List BundleFlag
  relatedWallets : List String
  fundingSource : Option String
  action : BundleAction
  penaltyApplied : Option BundlePenalty
deriving DecidableEq, Repr

/-- `BuyRecord` from the detector module. -/
structure BuyRecord where
  signature : String
  wallet : String
  amount : ℚ
  slot : ℕ
  timestamp : ℚ
  launchId : String
deriving DecidableEq, Repr

/-- The fields of a resolved parsed transaction that the detector reads:
`tx.slot`, the fee payer `accountKeys[0]`, and the index-0 pre/post
balances used by `extractBuyAmount`. -/
structure ParsedTx where
  slot : ℕ
  feePayer : String
  preBalance0 : ℚ
  postBalance0 : ℚ
deriving DecidableEq, Repr

/-- Result shape of `BundleDetector.analyzeFundingSources` (an external
collaborator call: its result is passed to the evaluation as an input). -/
structure FundingAnalysisResult where
  sharedSource : Bool
  source : Option String
  relatedCount : ℕ
  relatedWallets : List String
deriving DecidableEq, Repr

/-- The `severityWeights` table of `calculateConfidence`. -/
def severityWeight : Severity → ℕ
  | .critical => 40
  | .high => 25
  | .medium => 15
  | .low => 5

/-- `BundleDetector.calculateConfidence`: 0 for no flags, otherwise the
sum of severity weights clamped to 100. -/
def calculateConfidence (flags : List BundleFlag) : ℕ :=
  if flags = [] then 0
  else min 100 (flags.foldl (fun score flag => score + severityWeight flag.severity) 0)

/-- `BundleDetector.determineAction`. -/
def determineAction (confidence : ℕ) (flags : List BundleFlag) : BundleAction :=
  if flags.any (fun f => decide (f.type = BundleFlagType.known_bundler)) then .block
  else if 90 ≤ confidence then .block
  else if 70 ≤ confidence then .reduce_rewards
  else if 50 ≤ confidence then .delay_rewards
  else if 30 ≤ confidence then .flag
  else .none

/-- `BundleDetector.determinePenalty`. -/
def determinePenalty (action : BundleAction) : Option BundlePenalty :=
  match action with
  | .block =>
      some { action := .block, rewardDelayDays := none, rewardReductionPercent := none,
             reason := "High confidence bundle detection - participation blocked" }
  | .reduce_rewards =>
      some { action := .reduce_rewards, rewardDelayDays := none,
             rewardReductionPercent := some (BUNDLER_REWARD_REDUCTION * 100),
             reason := "Suspected bundling - rewards reduced by 50%" }
  | .delay_rewards =>
      some { action := .delay_rewards, rewardDelayDays := some BUNDLER_REWARD_DELAY_DAYS,
             rewardReductionPercent := none,
             reason := "Potential bundling detected - rewards delayed 30 days" }
  | _ => Option.none

/-- Deduplication in first-occurrence order (worker): skip elements
already seen, keep the first occurrence of each new element. -/
def dedupAux : List String → List String → List String
  | _, [] => []
  | seen, x :: xs =>
      if x ∈ seen then dedupAux seen xs else x :: dedupAux (x :: seen) xs

/-- Deduplication in first-occurrence order, as `[...new Set(xs)]`. -/
def dedupKeepFirst (l : List String) : List String := dedupAux [] l

/-- `BundleDetector.createAnalysis`. -/
def createAnalysis (signature launchId : String) (isBundled : Bool)
    (confidence : ℕ) (flags : List BundleFlag) (action : BundleAction)
    (relatedWallets : List String := []) (fundingSource : Option String := none)
    (penalty : Option BundlePenalty := none) : BundleAnalysis :=
  { transactionSignature := signature
    launchId := launchId
    isBundled := isBundled
    confidence := confidence
    flags := flags
    relatedWallets := dedupKeepFirst relatedWallets
    fundingSource := fundingSource
    action := action
    penaltyApplied := penalty }

/-- Result shape of `BundleDetector.detectTimingPattern`. -/
structure TimingPatternResult where
  detected : Bool
  intervalMs : Option ℚ
deriving DecidableEq, Repr

/-- Consecutive inter-arrival intervals of a list of timestamps. -/
def consecutiveIntervals : List ℚ → List ℚ
  | [] => []
  | [_] => []
  | a :: b :: rest => (b - a) :: consecutiveIntervals (b :: rest)

/-- Insert a timestamp into an ascending list (stable). -/
def insertAsc (x : ℚ) : List ℚ → List ℚ
  | [] => [x]
  | y :: ys => if x ≤ y then x :: y :: ys else y :: insertAsc x ys

/-- Ascending comparison sort of timestamps, modelling the JS
`sort((a, b) => a - b)` call (insertion sort: same sorted result,
kernel-computable). -/
def sortAsc (l : List ℚ) : List ℚ := l.foldr insertAsc []

/-- Insert a buy record into a list ascending by timestamp (stable). -/
def insertByTimestamp (b : BuyRecord) : List BuyRecord → List BuyRecord
  | [] => [b]
  | y :: ys =>
      if b.timestamp ≤ y.timestamp then b :: y :: ys
      else y :: insertByTimestamp b ys

/-- Ascending sort of buy records by timestamp, modelling the JS
`sort((a, b) => a.timestamp - b.timestamp)` call. -/
def sortByTimestamp (l : List BuyRecord) : List BuyRecord :=
  l.foldr insertByTimestamp []

/-- `BundleDetector.detectTimingPattern`.  The JS test
`stdDev < avgInterval * 0.1` is modelled sqrt-free as
`variance < (avgInterval / 10)^2`, which is equivalent for the
nonnegative `avgInterval` arising from sorted timestamps. -/
def detectTimingPattern (buys : List BuyRecord) : TimingPatternResult :=
  if buys.length < 5 then { detected := false, intervalMs := none }
  else
    let sorted := sortByTimestamp buys
    let intervals := consecutiveIntervals (sorted.map (fun b => b.timestamp))
    let avgInterval := intervals.sum / (intervals.length : ℚ)
    let variance :=
      (intervals.map (fun i => (i - avgInterval) ^ 2)).sum / (intervals.length : ℚ)
    let isRegular := decide (variance < (avgInterval / 10) ^ 2)
    { detected := isRegular && decide (avgInterval < 60000)
      intervalMs := if isRegular then some avgInterval else none }

/-- `BundleDetector.analyzeTransaction`, shallowly embedded: the results
of the asynchronous collaborator calls are passed in as inputs —
`txResolution` for `getParsedTransaction` (`none` when the signature does
not resolve), `fundingAnalysis` for `analyzeFundingSources`, `walletAge`
(hours) for `getWalletAge`, and `newWalletBuyers` for
`countNewWalletBuyers`.  `knownBundlers` is the registry contents at the
time of the call.  The registry-update side effect at confidence ≥ 90
does not change the returned analysis and is not modelled here. -/
def analyzeTransaction (knownBundlers : List String)
    (signature launchId : String) (recentBuys : List BuyRecord)
    (txResolution : Option ParsedTx) (fundingAnalysis : FundingAnalysisResult)
    (walletAge : ℚ) (newWalletBuyers : ℕ) : BundleAnalysis :=
  match txResolution with
  | Option.none => createAnalysis signature launchId false 0 [] .none
  | some tx =>
    let buyerWallet := tx.feePayer
    let flags1 : List BundleFlag :=
      if buyerWallet ∈ knownBundlers then
        [{ type := .known_bundler, severity := .critical,
           description := "Wallet is associated with known bundling activity" }]
      else []
    let sameBlockBuys := recentBuys.filter
      (fun b => decide (b.slot = tx.slot) && decide (b.wallet ≠ buyerWallet))
    let flags2 := flags1 ++
      (if SAME_BLOCK_THRESHOLD ≤ sameBlockBuys.length then
        [{ type := .same_block_buys, severity := .high,
           description := Nat.repr (sameBlockBuys.length + 1) ++ " buys in the same block" }]
      else [])
    let related1 : List String :=
      if SAME_BLOCK_THRESHOLD ≤ sameBlockBuys.length then
        sameBlockBuys.map (fun b => b.wallet)
      else []
    let flags3 := flags2 ++
      (if fundingAnalysis.sharedSource then
        [{ type := .same_funding_source, severity := .high,
           description := "Funded from same source as " ++
             Nat.repr fundingAnalysis.relatedCount ++ " other buyers" }]
      else [])
    let related2 := related1 ++
      (if fundingAnalysis.sharedSource then fundingAnalysis.relatedWallets else [])
    let flags4 := flags3 ++
      (if walletAge < 24 ∧ 5 ≤ newWalletBuyers then
        [{ type := .new_wallet_cluster, severity := .medium,
           description := "New wallet part of cluster of new wallets" }]
      else [])
    let buyAmount := (tx.preBalance0 - tx.postBalance0) / 1000000000
    let similarAmountBuys := recentBuys.filter
      (fun b => decide (|b.amount - buyAmount| / buyAmount < 1/20))
    let flags5 := flags4 ++
      (if 3 ≤ similarAmountBuys.length then
        [{ type := .similar_amounts, severity := .medium,
           description := Nat.repr similarAmountBuys.length ++
             " buys with nearly identical amounts" }]
      else [])
    let timingPattern := detectTimingPattern recentBuys
    let flags6 := flags5 ++
      (if timingPattern.detected then
        [{ type := .timing_pattern, severity := .medium,
           description := "Regular timing pattern detected" }]
      else [])
    let confidence := calculateConfidence flags6
    let isBundled := decide (BUNDLE_CONFIDENCE_THRESHOLD ≤ confidence)
    let action := determineAction confidence flags6
    let penalty := determinePenalty action
    createAnalysis signature launchId isBundled confidence flags6 action
      related2 fundingAnalysis.source penalty

/-! ### Wallet relationship graph (src/detector/graph.ts) -/

/-- `WalletNode` from the graph module. -/
structure WalletNode where
  address : String
  firstSeen : ℚ
  transactionCount : ℕ
  totalVolume : ℚ
  fundingSources : List String
  fundingTargets : List String
  buyTimestamps : List ℚ
deriving DecidableEq, Repr

/-- Edge types of `WalletEdge`. -/
inductive EdgeType where
  | funding
  | transfer
  | trade
deriving DecidableEq, Repr

/-- `WalletEdge`; `from` is a Lean keyword, so the endpoint fields are
named `fromAddr`/`toAddr`. -/
structure WalletEdge where
  fromAddr : String
  toAddr : String
  type : EdgeType
  amount : ℚ
  timestamp : ℚ
deriving DecidableEq, Repr

/-- The mutable state of a `WalletGraphAnalyzer`: `nodes` and
`adjacencyList` are JS `Map`s modelled as association lists in
insertion order (keys unique), the `Set` values of `adjacencyList` as
duplicate-free lists in insertion order. -/
structure GraphState where
  nodes : List (String × WalletNode)
  edges : List WalletEdge
  adjacencyList : List (String × List String)
deriving DecidableEq, Repr

/-- The empty graph (a freshly constructed `WalletGraphAnalyzer`). -/
def initialGraph : GraphState := { nodes := [], edges := [], adjacencyList := [] }

/-- `Map.set` on an association list when the key is already present:
update the (first) binding in place. -/
def updateAssoc (l : List (String × WalletNode)) (key : String)
    (f : WalletNode → WalletNode) : List (String × WalletNode) :=
  l.map (fun e => if e.1 = key then (e.1, f e.2) else e)

/-- Ensure a key exists in the adjacency map
(`if (!adjacencyList.has(k)) adjacencyList.set(k, new Set())`);
a fresh key is appended, matching `Map` insertion order. -/
def adjEnsureKey (adj : List (String × List String)) (key : String) :
    List (String × List String) :=
  if (adj.lookup key).isSome then adj else adj ++ [(key, [])]

/-- `adjacencyList.get(key)!.add(nbr)`: add `nbr` to the `Set` stored at
`key` (appending, matching `Set` insertion order). -/
def adjAddNbr (adj : List (String × List String)) (key nbr : String) :
    List (String × List String) :=
  adj.map (fun e =>
    if e.1 = key then (e.1, if nbr ∈ e.2 then e.2 else e.2 ++ [nbr]) else e)

/-- `WalletGraphAnalyzer.addEdge`. -/
def addEdge (g : GraphState) (fromAddr toAddr : String) (type : EdgeType)
    (amount timestamp : ℚ) : GraphState :=
  let edges := g.edges ++ [⟨fromAddr, toAddr, type, amount, timestamp⟩]
  let adj := adjEnsureKey (adjEnsureKey g.adjacencyList fromAddr) toAddr
  let adj := adjAddNbr (adjAddNbr adj fromAddr toAddr) toAddr fromAddr
  { nodes := g.nodes, edges := edges, adjacencyList := adj }

/-- `WalletGraphAnalyzer.addWallet`. -/
def addWallet (g : GraphState) (address : String) (firstSeen : ℚ)
    (fundingSources fundingTargets : List String) : GraphState :=
  let g1 : GraphState :=
    match g.nodes.lookup address with
    | some _ =>
        { g with nodes := updateAssoc g.nodes address (fun n =>
            { n with fundingSources := n.fundingSources ++ fundingSources
                     fundingTargets := n.fundingTargets ++ fundingTargets
                     transactionCount := n.transactionCount + 1 }) }
    | none =>
        { g with nodes := g.nodes ++
            [(address, { address := address, firstSeen := firstSeen,
                         transactionCount := 1, totalVolume := 0,
                         fundingSources := fundingSources,
                         fundingTargets := fundingTargets,
                         buyTimestamps := [] })] }
  let g2 := { g1 with adjacencyList := adjEnsureKey g1.adjacencyList address }
  let g3 := fundingSources.foldl
    (fun acc s => addEdge acc s address .funding 0 firstSeen) g2
  fundingTargets.foldl
    (fun acc t => addEdge acc address t .funding 0 firstSeen) g3

/-- `WalletGraphAnalyzer.recordBuy`: a no-op when the wallet has no
node. -/
def recordBuy (g : GraphState) (wallet : String) (amount timestamp : ℚ) :
    GraphState :=
  match g.nodes.lookup wallet with
  | none => g
  | some _ =>
      { g with nodes := updateAssoc g.nodes wallet (fun n =>
          { n with totalVolume := n.totalVolume + amount
                   buyTimestamps := n.buyTimestamps ++ [timestamp] }) }

/-- `ClusterResult` from the graph module. -/
structure ClusterResult where
  clusterId : String
  wallets : List String
  centerWallet : String
  totalVolume : ℚ
  avgAge : ℚ
  suspicionScore : ℕ
  reasons : List String
deriving DecidableEq, Repr

/-- The nodes of a cluster:
`wallets.map(w => this.nodes.get(w)!).filter(Boolean)`. -/
def clusterNodesOf (g : GraphState) (wallets : List String) : List WalletNode :=
  wallets.filterMap (fun w => g.nodes.lookup w)

/-- Cluster average age in hours, `avgAge / (1000*60*60)` in
`analyzeCluster`; only evaluated on nonempty clusters in the source. -/
def clusterAvgAgeHours (clusterNodes : List WalletNode) (now : ℚ) : ℚ :=
  ((clusterNodes.map (fun n => now - n.firstSeen)).sum
    / (clusterNodes.length : ℚ)) / (1000 * 60 * 60)

/-- Age contribution of `analyzeCluster` step 1. -/
def clusterAgeScore (clusterNodes : List WalletNode) (now : ℚ) : ℕ :=
  if clusterAvgAgeHours clusterNodes now < 24 then 30
  else if clusterAvgAgeHours clusterNodes now < 168 then 15
  else 0

/-- One step of building the `sourceCount` map: `Map.set(source,
(Map.get(source) || 0) + 1)`. -/
def bumpCount : List (String × ℕ) → String → List (String × ℕ)
  | [], s => [(s, 1)]
  | (k, c) :: rest, s =>
      if k = s then (k, c + 1) :: rest else (k, c) :: bumpCount rest s

/-- The `sourceCount` map of `analyzeCluster` step 2, built by iterating
over every funding-source occurrence of every cluster node. -/
def buildSourceCount (sources : List String) : List (String × ℕ) :=
  sources.foldl bumpCount []

/-- All funding-source occurrences of a cluster, in iteration order. -/
def allFundingSources (clusterNodes : List WalletNode) : List String :=
  (clusterNodes.map (fun n => n.fundingSources)).flatten

/-- Shared-funding contribution of `analyzeCluster` step 2: +25 for
every `sourceCount` entry with count ≥ 3. -/
def clusterFundingScore (clusterNodes : List WalletNode) : ℕ :=
  (buildSourceCount (allFundingSources clusterNodes)).foldl
    (fun score e => if 3 ≤ e.2 then score + 25 else score) 0

/-- Timing contribution of `analyzeCluster` step 3 (+35 for a mean
inter-arrival under one minute, +25 for a tight standard deviation with
at least five intervals; the `stdDev < avgInterval * 0.1` test is
modelled sqrt-free as `variance < (avgInterval / 10)^2`, equivalent for
the nonnegative mean arising from sorted timestamps). -/
def clusterTimingScore (clusterNodes : List WalletNode) : ℕ :=
  let allBuyTimestamps :=
    sortAsc ((clusterNodes.map (fun n => n.buyTimestamps)).flatten)
  if 3 ≤ allBuyTimestamps.length then
    let intervals := consecutiveIntervals allBuyTimestamps
    let avgInterval := intervals.sum / (intervals.length : ℚ)
    let variance :=
      (intervals.map (fun i => (i - avgInterval) ^ 2)).sum / (intervals.length : ℚ)
    (if avgInterval < 60000 then 35 else 0) +
    (if variance < (avgInterval / 10) ^ 2 ∧ 5 ≤ intervals.length then 25 else 0)
  else 0

/-- Cluster-size contribution of `analyzeCluster` step 4. -/
def clusterSizeScore (wallets : List String) : ℕ :=
  if 10 ≤ wallets.length then 20
  else if 5 ≤ wallets.length then 10
  else 0

/-- Center wallet of `analyzeCluster` step 5: the member with the most
adjacency connections, first-seen-in-iteration wins ties. -/
def centerWalletOf (g : GraphState) (wallets : List String) : String :=
  (wallets.foldl
    (fun acc w =>
      let connections := ((g.adjacencyList.lookup w).getD []).length
      if acc.2 < connections then (w, connections) else acc)
    (wallets.headD "", 0)).1

/-- `WalletGraphAnalyzer.analyzeCluster` (`now` stands for `Date.now()`).
The sequential `suspicionScore +=` updates of the source are the sum of
the four block contributions; the human-readable `reasons` strings are
kept only as fixed tags. -/
def analyzeCluster (g : GraphState) (wallets : List String)
    (clusterId : String) (now : ℚ) : ClusterResult :=
  let clusterNodes := clusterNodesOf g wallets
  let suspicionScore :=
    clusterAgeScore clusterNodes now + clusterFundingScore clusterNodes +
    clusterTimingScore clusterNodes + clusterSizeScore wallets
  { clusterId := clusterId
    wallets := wallets
    centerWallet := centerWalletOf g wallets
    totalVolume := (clusterNodes.map (fun n => n.totalVolume)).sum
    avgAge := clusterAvgAgeHours clusterNodes now
    suspicionScore := min 100 suspicionScore
    reasons :=
      (if clusterAgeScore clusterNodes now ≠ 0 then ["cluster age"] else []) ++
      (if clusterFundingScore clusterNodes ≠ 0 then ["shared funding"] else []) ++
      (if clusterTimingScore clusterNodes ≠ 0 then ["buy timing"] else []) ++
      (if clusterSizeScore wallets ≠ 0 then ["cluster size"] else []) }

/-! ### BFS traversal: `areConnected` and `findPath` -/

/-- The adjacency view type. -/
abbrev Adjacency := List (String × List String)

/-- `this.adjacencyList.get(w) || new Set()`: the neighbour set of `w`. -/
def neighbors (adj : Adjacency) (w : String) : List String :=
  (adj.lookup w).getD []

/-- Keys of the adjacency map. -/
def adjacencyKeys (adj : Adjacency) : List String := adj.map (fun e => e.1)

/-- Number of adjacency keys not yet visited; first component of the
termination measure of the BFS loops. -/
def remainingKeys (adj : Adjacency) (visited : List String) : ℕ :=
  ((adjacencyKeys adj).filter (fun k => decide (k ∉ visited))).length

/-- Total number of stored neighbour entries; bounds how much a single
BFS step can grow the queue. -/
def adjacencyWeight (adj : Adjacency) : ℕ :=
  (adj.map (fun e => e.2.length)).sum

theorem lookup_cons_unfold {β : Type} (w k : String) (v : β)
    (l : List (String × β)) :
    List.lookup w ((k, v) :: l) = if w = k then some v else List.lookup w l := by
  by_cases h : w = k
  · simp [List.lookup, h]
  · have hb : (w == k) = false := by simpa using h
    simp [List.lookup, hb, h]

theorem lookup_some_mem_keys {adj : Adjacency} {w : String} {l : List String}
    (h : adj.lookup w = some l) : w ∈ adjacencyKeys adj := by
  induction adj with
  | nil => simp [List.lookup_nil] at h
  | cons e rest ih =>
    obtain ⟨k, v⟩ := e
    rw [lookup_cons_unfold] at h
    by_cases hw : w = k
    · simp [adjacencyKeys, hw]
    · rw [if_neg hw] at h
      simp only [adjacencyKeys, List.map_cons, List.mem_cons]
      exact Or.inr (ih h)

theorem lookup_some_length_le {adj : Adjacency} {w : String} {l : List String}
    (h : adj.lookup w = some l) : l.length ≤ adjacencyWeight adj := by
  induction adj with
  | nil => simp [List.lookup_nil] at h
  | cons e rest ih =>
    obtain ⟨k, v⟩ := e
    rw [lookup_cons_unfold] at h
    by_cases hw : w = k
    · rw [if_pos hw] at h
      obtain rfl : v = l := by simpa using h
      simp [adjacencyWeight]
    · rw [if_neg hw] at h
      have := ih h
      simp only [adjacencyWeight, List.map_cons, List.sum_cons] at this ⊢
      omega

theorem filter_notMem_cons_length_le (l : List String) (w : String)
    (V : List String) :
    (l.filter (fun k => decide (k ∉ w :: V))).length ≤
      (l.filter (fun k => decide (k ∉ V))).length := by
  apply List.Sublist.length_le
  apply List.monotone_filter_right
  intro a ha
  simp at ha ⊢
  tauto

theorem filter_notMem_cons_length_lt {l : List String} {w : String}
    (V : List String) (hmem : w ∈ l) (hnv : w ∉ V) :
    (l.filter (fun k => decide (k ∉ w :: V))).length <
      (l.filter (fun k => decide (k ∉ V))).length := by
  induction l with
  | nil => simp at hmem
  | cons a ks ih =>
    rcases List.mem_cons.mp hmem with hk | hk
    · simp only [List.filter]
      have h1 : (decide (a ∉ w :: V)) = false := by
        rw [← hk]; simp
      have h2 : (decide (a ∉ V)) = true := by
        rw [← hk]; simpa using hnv
      rw [h1, h2]
      exact Nat.lt_succ_of_le (filter_notMem_cons_length_le ks w V)
    · simp only [List.filter]
      by_cases hkw : a ∈ w :: V
      · have h1 : (decide (a ∉ w :: V)) = false := by simp [hkw]
        rcases List.mem_cons.mp hkw with hkw2 | hkw2
        · have h2 : (decide (a ∉ V)) = true := by
            rw [hkw2]; simpa using hnv
          rw [h1, h2]
          exact Nat.lt_succ_of_le (filter_notMem_cons_length_le ks w V)
        · have h2 : (decide (a ∉ V)) = false := by simp [hkw2]
          rw [h1, h2]
          exact ih hk
      · have h1 : (decide (a ∉ w :: V)) = true := by simpa using hkw
        have hknv : a ∉ V := fun hc => hkw (List.mem_cons_of_mem _ hc)
        have h2 : (decide (a ∉ V)) = true := by simpa using hknv
        rw [h1, h2]
        simpa using ih hk

theorem remainingKeys_cons_lt {adj : Adjacency} {w : String} {l : List String}
    (V : List String) (hlk : adj.lookup w = some l) (hnv : w ∉ V) :
    remainingKeys adj (w :: V) < remainingKeys adj V :=
  filter_notMem_cons_length_lt V (lookup_some_mem_keys hlk) hnv

theorem lookup_none_notMem_keys {β : Type} {l : List (String × β)} {w : String}
    (h : List.lookup w l = none) : w ∉ l.map (fun e => e.1) := by
  induction l with
  | nil => simp
  | cons e rest ih =>
    obtain ⟨k, v⟩ := e
    rw [lookup_cons_unfold] at h
    by_cases hw : w = k
    · rw [if_pos hw] at h
      exact Option.noConfusion h
    · rw [if_neg hw] at h
      simp only [List.map_cons, List.mem_cons]
      push_neg
      exact ⟨hw, ih h⟩

theorem remainingKeys_cons_eq_of_lookup_none {adj : Adjacency} {w : String}
    (V : List String) (hlk : adj.lookup w = none) :
    remainingKeys adj (w :: V) = remainingKeys adj V := by
  have hw : w ∉ adjacencyKeys adj := lookup_none_notMem_keys hlk
  unfold remainingKeys
  congr 1
  apply List.filter_congr
  intro k hk
  have hkw : k ≠ w := fun hc => hw (hc ▸ hk)
  simp [hkw]

/-- The BFS loop of `WalletGraphAnalyzer.areConnected`: pop the queue
head, succeed if it is the target, skip it if already visited, otherwise
mark it visited and push its unvisited neighbours. -/
def areConnectedLoop (adj : Adjacency) (target : String) (V : List String)
    (Q : List String) : Bool :=
  match Q with
  | [] => false
  | current :: rest =>
    if current = target then true
    else if current ∈ V then areConnectedLoop adj target V rest
    else
      areConnectedLoop adj target (current :: V)
        (rest ++ (neighbors adj current).filter
          (fun n => decide (n ∉ current :: V)))
termination_by remainingKeys adj V * (adjacencyWeight adj + 1) + Q.length
decreasing_by
  · simp only [List.length_cons]
    omega
  · rename_i _hnt hnv
    cases hlk : List.lookup current adj with
    | none =>
      have he : neighbors adj current = [] := by simp [neighbors, hlk]
      rw [he, remainingKeys_cons_eq_of_lookup_none V hlk]
      simp only [List.filter_nil, List.append_nil, List.length_cons]
      omega
    | some l =>
      have h1 : remainingKeys adj (current :: V) < remainingKeys adj V :=
        remainingKeys_cons_lt V hlk hnv
      have h2 : (List.filter (fun n => decide (n ∉ current :: V))
          (neighbors adj current)).length ≤ adjacencyWeight adj := by
        have hn : (neighbors adj current).length ≤ adjacencyWeight adj := by
          rw [neighbors, hlk]
          simpa using lookup_some_length_le hlk
        exact le_trans (List.length_filter_le _ _) hn
      have hb : (remainingKeys adj (current :: V) + 1) * (adjacencyWeight adj + 1) ≤
          remainingKeys adj V * (adjacencyWeight adj + 1) :=
        Nat.mul_le_mul_right _ (Nat.succ_le_of_lt h1)
      have hexp : (remainingKeys adj (current :: V) + 1) * (adjacencyWeight adj + 1) =
          remainingKeys adj (current :: V) * (adjacencyWeight adj + 1) +
            adjacencyWeight adj + 1 := by ring
      simp only [List.length_append, List.length_cons]
      linarith [hb, hexp, h2]


/-- The BFS loop of `WalletGraphAnalyzer.findPath`: queue entries carry
the path taken from the start wallet; pop the head, return its path if
it is the target, skip if visited, otherwise mark visited and push every
unvisited neighbour with the extended path. -/
def findPathLoop (adj : Adjacency) (target : String) (V : List String)
    (Q : List (String × List String)) : Option (List String) :=
  match Q with
  | [] => none
  | (wallet, path) :: rest =>
    if wallet = target then some path
    else if wallet ∈ V then findPathLoop adj target V rest
    else
      findPathLoop adj target (wallet :: V)
        (rest ++ ((neighbors adj wallet).filter
          (fun n => decide (n ∉ wallet :: V))).map (fun n => (n, path ++ [n])))
termination_by remainingKeys adj V * (adjacencyWeight adj + 1) + Q.length
decreasing_by
  · simp only [List.length_cons]
    omega
  · rename_i _hnt hnv
    cases hlk : List.lookup wallet adj with
    | none =>
      have he : neighbors adj wallet = [] := by simp [neighbors, hlk]
      rw [he, remainingKeys_cons_eq_of_lookup_none V hlk]
      simp only [List.filter_nil, List.map_nil, List.append_nil, List.length_cons]
      omega
    | some l =>
      have h1 : remainingKeys adj (wallet :: V) < remainingKeys adj V :=
        remainingKeys_cons_lt V hlk hnv
      have h2 : (((neighbors adj wallet).filter
          (fun n => decide (n ∉ wallet :: V))).map
            (fun n => (n, path ++ [n]))).length ≤ adjacencyWeight adj := by
        have hn : (neighbors adj wallet).length ≤ adjacencyWeight adj := by
          rw [neighbors, hlk]
          simpa using lookup_some_length_le hlk
        rw [List.length_map]
        exact le_trans (List.length_filter_le _ _) hn
      have hb : (remainingKeys adj (wallet :: V) + 1) * (adjacencyWeight adj + 1) ≤
          remainingKeys adj V * (adjacencyWeight adj + 1) :=
        Nat.mul_le_mul_right _ (Nat.succ_le_of_lt h1)
      have hexp : (remainingKeys adj (wallet :: V) + 1) * (adjacencyWeight adj + 1) =
          remainingKeys adj (wallet :: V) * (adjacencyWeight adj + 1) +
            adjacencyWeight adj + 1 := by ring
      simp only [List.length_append, List.length_cons]
      linarith [hb, hexp, h2]

/-- `WalletGraphAnalyzer.areConnected`. -/
def areConnected (g : GraphState) (wallet1 wallet2 : String) : Bool :=
  areConnectedLoop g.adjacencyList wallet2 [] [wallet1]

/-- `WalletGraphAnalyzer.findPath`. -/
def findPath (g : GraphState) (wallet1 wallet2 : String) :
    Option (List String) :=
  findPathLoop g.adjacencyList wallet2 [] [(wallet1, [wallet1])]

/-! ### Paths and reachability in the adjacency view -/

/-- One BFS step: `y` is stored as a neighbour of `x`. -/
def StepTo (adj : Adjacency) (x y : String) : Prop := y ∈ neighbors adj x

/-- `b` is reachable from `a` along stored neighbour links. -/
def Reachable (adj : Adjacency) (a b : String) : Prop :=
  Relation.ReflTransGen (StepTo adj) a b

/-- `p` is a walk from `a` to `b` in the adjacency view: nonempty, has
head `a`, last element `b`, and each consecutive pair is a stored
neighbour link. -/
def PathFrom (adj : Adjacency) (a b : String) (p : List String) : Prop :=
  p.head? = some a ∧ p.getLast? = some b ∧ List.Chain' (StepTo adj) p

theorem pathFrom_singleton (adj : Adjacency) (a : String) :
    PathFrom adj a a [a] := by
  refine ⟨rfl, rfl, ?_⟩
  simp

theorem pathFrom_ne_nil {adj : Adjacency} {a b : String} {p : List String}
    (h : PathFrom adj a b p) : p ≠ [] := by
  intro hc
  rw [hc] at h
  exact Option.noConfusion h.1

theorem pathFrom_length_pos {adj : Adjacency} {a b : String} {p : List String}
    (h : PathFrom adj a b p) : 1 ≤ p.length :=
  List.length_pos.mpr (pathFrom_ne_nil h)

theorem pathFrom_head_mem {adj : Adjacency} {a b : String} {p : List String}
    (h : PathFrom adj a b p) : a ∈ p := by
  cases p with
  | nil => exact absurd rfl (pathFrom_ne_nil h)
  | cons x rest =>
    have : x = a := by simpa using h.1
    rw [← this]
    exact List.mem_cons_self _ _

theorem pathFrom_extend {adj : Adjacency} {a w n : String} {p : List String}
    (h : PathFrom adj a w p) (hn : n ∈ neighbors adj w) :
    PathFrom adj a n (p ++ [n]) := by
  obtain ⟨h1, h2, h3⟩ := h
  refine ⟨?_, ?_, ?_⟩
  · cases p with
    | nil => exact Option.noConfusion h1
    | cons x rest => simpa using h1
  · simp
  · rw [List.chain'_append]
    refine ⟨h3, List.chain'_singleton _, ?_⟩
    intro x hx y hy
    have hxw : x = w := by
      rw [h2] at hx
      exact (by simpa using hx : w = x).symm
    have hyn : y = n := (by simpa using hy : n = y).symm
    rw [hxw, hyn]
    exact hn

theorem pathFrom_cons_tail {adj : Adjacency} {x b y : String}
    {t : List String} (h : PathFrom adj x b (x :: y :: t)) :
    PathFrom adj y b (y :: t) := by
  obtain ⟨_, h2, h3⟩ := h
  refine ⟨rfl, ?_, ?_⟩
  · simpa [List.getLast?_cons_cons] using h2
  · exact (List.chain'_cons.mp h3).2

theorem pathFrom_cons_step {adj : Adjacency} {x b y : String}
    {t : List String} (h : PathFrom adj x b (x :: y :: t)) :
    StepTo adj x y :=
  (List.chain'_cons.mp h.2.2).1

theorem pathFrom_reachable {adj : Adjacency} {b : String} :
    ∀ {p : List String} {a : String}, PathFrom adj a b p → Reachable adj a b := by
  intro p
  induction p with
  | nil => intro a h; exact absurd rfl (pathFrom_ne_nil h)
  | cons x rest ih =>
    intro a h
    have hxa : x = a := by simpa using h.1
    subst hxa
    cases rest with
    | nil =>
      have : x = b := by simpa using h.2.1
      rw [this]
      exact Relation.ReflTransGen.refl
    | cons y t =>
      have hstep : StepTo adj x y := pathFrom_cons_step h
      have htail : PathFrom adj y b (y :: t) := pathFrom_cons_tail h
      exact Relation.ReflTransGen.head hstep (ih htail)

theorem reachable_pathFrom {adj : Adjacency} {a b : String}
    (h : Reachable adj a b) : ∃ p, PathFrom adj a b p := by
  induction h with
  | refl => exact ⟨[a], pathFrom_singleton adj a⟩
  | tail _ hstep ih =>
    obtain ⟨p, hp⟩ := ih
    exact ⟨p ++ [_], pathFrom_extend hp hstep⟩

theorem reachable_mem_closed {adj : Adjacency} {a b : String}
    {S : List String} (h : Reachable adj a b) (ha : a ∈ S)
    (hcl : ∀ u ∈ S, ∀ n ∈ neighbors adj u, n ∈ S) : b ∈ S := by
  induction h with
  | refl => exact ha
  | tail _ hstep ih => exact hcl _ ih _ hstep

theorem pathFrom_suffix_of_mem {adj : Adjacency} {b x : String} :
    ∀ {p : List String} {u : String}, PathFrom adj u b p → x ∈ p →
    ∃ t, PathFrom adj x b (x :: t) ∧ (x :: t).length ≤ p.length ∧
      (∀ y ∈ x :: t, y ∈ p) ∧ x ∉ t := by
  intro p
  induction p with
  | nil => intro u _ hx; simp at hx
  | cons h rest ih =>
    intro u hp hx
    have heq : h = u := by simpa using hp.1
    subst heq
    by_cases hxr : x ∈ rest
    · cases rest with
      | nil => simp at hxr
      | cons v t2 =>
        have htail : PathFrom adj v b (v :: t2) := pathFrom_cons_tail hp
        obtain ⟨t, ht1, ht2, ht3, ht4⟩ := ih htail hxr
        refine ⟨t, ht1, ?_, ?_, ht4⟩
        · calc (x :: t).length ≤ (v :: t2).length := ht2
            _ ≤ (h :: v :: t2).length := by simp
        · intro y hy
          exact List.mem_cons_of_mem _ (ht3 y hy)
    · have hxh : x = h := by
        rcases List.mem_cons.mp hx with h1 | h1
        · exact h1
        · exact absurd h1 hxr
      refine ⟨rest, ?_, le_refl _, fun y hy => hxh ▸ hy, hxr⟩
      rw [hxh]
      exact hp

/-! ### Correctness of the BFS loops -/

theorem areConnectedLoop_true_reachable (adj : Adjacency) (a target : String) :
    ∀ V Q, (∀ w ∈ Q, Reachable adj a w) →
    areConnectedLoop adj target V Q = true → Reachable adj a target := by
  intro V Q
  induction V, Q using areConnectedLoop.induct adj target with
  | case1 V =>
    intro _ h
    rw [areConnectedLoop] at h
    exact Bool.noConfusion h
  | case2 V xs =>
    intro hq _
    exact hq target (List.mem_cons_self _ _)
  | case3 V x xs hnt hv ih =>
    intro hq h
    rw [areConnectedLoop, if_neg hnt, if_pos hv] at h
    exact ih (fun w hw => hq w (List.mem_cons_of_mem _ hw)) h
  | case4 V x xs hnt hv ih =>
    intro hq h
    rw [areConnectedLoop, if_neg hnt, if_neg hv] at h
    apply ih _ h
    intro w hw
    rcases List.mem_append.mp hw with h1 | h1
    · exact hq w (List.mem_cons_of_mem _ h1)
    · have hx : Reachable adj a x := hq x (List.mem_cons_self _ _)
      have hstep : StepTo adj x w := List.mem_of_mem_filter h1
      exact Relation.ReflTransGen.tail hx hstep

theorem areConnectedLoop_false_closure (adj : Adjacency) (target : String) :
    ∀ V Q, areConnectedLoop adj target V Q = false → target ∉ V →
    (∀ u ∈ V, ∀ n ∈ neighbors adj u, n ∈ V ∨ n ∈ Q) →
    ∃ Vf : List String, (∀ v ∈ V, v ∈ Vf) ∧ (∀ w ∈ Q, w ∈ Vf) ∧
      target ∉ Vf ∧ (∀ u ∈ Vf, ∀ n ∈ neighbors adj u, n ∈ Vf) := by
  intro V Q
  induction V, Q using areConnectedLoop.induct adj target with
  | case1 V =>
    intro _ htv hcl
    refine ⟨V, fun v hv => hv, by simp, htv, ?_⟩
    intro u hu n hn
    rcases hcl u hu n hn with h1 | h1
    · exact h1
    · simp at h1
  | case2 V xs =>
    intro h _ _
    rw [areConnectedLoop, if_pos rfl] at h
    exact Bool.noConfusion h
  | case3 V x xs hnt hv ih =>
    intro h htv hcl
    rw [areConnectedLoop, if_neg hnt, if_pos hv] at h
    have hcl2 : ∀ u ∈ V, ∀ n ∈ neighbors adj u, n ∈ V ∨ n ∈ xs := by
      intro u hu n hn
      rcases hcl u hu n hn with h1 | h1
      · exact Or.inl h1
      · rcases List.mem_cons.mp h1 with h2 | h2
        · exact Or.inl (h2 ▸ hv)
        · exact Or.inr h2
    obtain ⟨Vf, hVf1, hVf2, hVf3, hVf4⟩ := ih h htv hcl2
    refine ⟨Vf, hVf1, ?_, hVf3, hVf4⟩
    intro w hw
    rcases List.mem_cons.mp hw with h1 | h1
    · exact h1 ▸ hVf1 x hv
    · exact hVf2 w h1
  | case4 V x xs hnt hv ih =>
    intro h htv hcl
    rw [areConnectedLoop, if_neg hnt, if_neg hv] at h
    have htx : target ∉ x :: V := by
      intro hc
      rcases List.mem_cons.mp hc with h1 | h1
      · exact hnt h1.symm
      · exact htv h1
    have hcl2 : ∀ u ∈ x :: V, ∀ n ∈ neighbors adj u,
        n ∈ x :: V ∨ n ∈ xs ++ List.filter (fun n => decide (n ∉ x :: V)) (neighbors adj x) := by
      intro u hu n hn
      rcases List.mem_cons.mp hu with h1 | h1
      · by_cases hnv2 : n ∈ x :: V
        · exact Or.inl hnv2
        · refine Or.inr (List.mem_append_right _ ?_)
          rw [List.mem_filter]
          exact ⟨h1 ▸ hn, by simpa using hnv2⟩
      · rcases hcl u h1 n hn with h2 | h2
        · exact Or.inl (List.mem_cons_of_mem _ h2)
        · rcases List.mem_cons.mp h2 with h3 | h3
          · exact Or.inl (h3 ▸ List.mem_cons_self _ _)
          · exact Or.inr (List.mem_append_left _ h3)
    obtain ⟨Vf, hVf1, hVf2, hVf3, hVf4⟩ := ih h htx hcl2
    refine ⟨Vf, ?_, ?_, hVf3, hVf4⟩
    · intro v hvm
      exact hVf1 v (List.mem_cons_of_mem _ hvm)
    · intro w hw
      rcases List.mem_cons.mp hw with h1 | h1
      · exact h1 ▸ hVf1 x (List.mem_cons_self _ _)
      · exact hVf2 w (List.mem_append_left _ h1)

theorem findPathLoop_some_path (adj : Adjacency) (a target : String) :
    ∀ V Q p, (∀ e ∈ Q, PathFrom adj a e.1 e.2) →
    findPathLoop adj target V Q = some p → PathFrom adj a target p := by
  intro V Q
  induction V, Q using findPathLoop.induct adj target with
  | case1 V =>
    intro p _ h
    rw [findPathLoop] at h
    exact Option.noConfusion h
  | case2 V path rest =>
    intro p hq h
    rw [findPathLoop, if_pos rfl] at h
    obtain rfl : path = p := by simpa using h
    exact hq (target, path) (List.mem_cons_self _ _)
  | case3 V wallet path rest hnt hv ih =>
    intro p hq h
    rw [findPathLoop, if_neg hnt, if_pos hv] at h
    exact ih p (fun e he => hq e (List.mem_cons_of_mem _ he)) h
  | case4 V wallet path rest hnt hv ih =>
    intro p hq h
    rw [findPathLoop, if_neg hnt, if_neg hv] at h
    apply ih p _ h
    intro e he
    rcases List.mem_append.mp he with h1 | h1
    · exact hq e (List.mem_cons_of_mem _ h1)
    · obtain ⟨n, hn, rfl⟩ := List.mem_map.mp h1
      have hpw : PathFrom adj a wallet path :=
        hq (wallet, path) (List.mem_cons_self _ _)
      exact pathFrom_extend hpw (List.mem_of_mem_filter hn)

theorem findPathLoop_none_closure (adj : Adjacency) (target : String) :
    ∀ V Q, findPathLoop adj target V Q = none → target ∉ V →
    (∀ u ∈ V, ∀ n ∈ neighbors adj u, n ∈ V ∨ ∃ e ∈ Q, e.1 = n) →
    ∃ Vf : List String, (∀ v ∈ V, v ∈ Vf) ∧ (∀ e ∈ Q, e.1 ∈ Vf) ∧
      target ∉ Vf ∧ (∀ u ∈ Vf, ∀ n ∈ neighbors adj u, n ∈ Vf) := by
  intro V Q
  induction V, Q using findPathLoop.induct adj target with
  | case1 V =>
    intro _ htv hcl
    refine ⟨V, fun v hv => hv, by simp, htv, ?_⟩
    intro u hu n hn
    rcases hcl u hu n hn with h1 | h1
    · exact h1
    · obtain ⟨e, he, _⟩ := h1
      simp at he
  | case2 V path rest =>
    intro h _ _
    rw [findPathLoop, if_pos rfl] at h
    exact Option.noConfusion h
  | case3 V wallet path rest hnt hv ih =>
    intro h htv hcl
    rw [findPathLoop, if_neg hnt, if_pos hv] at h
    have hcl2 : ∀ u ∈ V, ∀ n ∈ neighbors adj u, n ∈ V ∨ ∃ e ∈ rest, e.1 = n := by
      intro u hu n hn
      rcases hcl u hu n hn with h1 | h1
      · exact Or.inl h1
      · obtain ⟨e, he, hen⟩ := h1
        rcases List.mem_cons.mp he with h2 | h2
        · refine Or.inl ?_
          rw [← hen, h2]
          exact hv
        · exact Or.inr ⟨e, h2, hen⟩
    obtain ⟨Vf, hVf1, hVf2, hVf3, hVf4⟩ := ih h htv hcl2
    refine ⟨Vf, hVf1, ?_, hVf3, hVf4⟩
    intro e he
    rcases List.mem_cons.mp he with h1 | h1
    · rw [h1]
      exact hVf1 wallet hv
    · exact hVf2 e h1
  | case4 V wallet path rest hnt hv ih =>
    intro h htv hcl
    rw [findPathLoop, if_neg hnt, if_neg hv] at h
    have htx : target ∉ wallet :: V := by
      intro hc
      rcases List.mem_cons.mp hc with h1 | h1
      · exact hnt h1.symm
      · exact htv h1
    have hcl2 : ∀ u ∈ wallet :: V, ∀ n ∈ neighbors adj u,
        n ∈ wallet :: V ∨ ∃ e ∈ rest ++ ((neighbors adj wallet).filter
          (fun n => decide (n ∉ wallet :: V))).map (fun n => (n, path ++ [n])),
            e.1 = n := by
      intro u hu n hn
      rcases List.mem_cons.mp hu with h1 | h1
      · by_cases hnv2 : n ∈ wallet :: V
        · exact Or.inl hnv2
        · refine Or.inr ⟨(n, path ++ [n]), List.mem_append_right _ ?_, rfl⟩
          refine List.mem_map.mpr ⟨n, ?_, rfl⟩
          rw [List.mem_filter]
          exact ⟨h1 ▸ hn, by simpa using hnv2⟩
      · rcases hcl u h1 n hn with h2 | h2
        · exact Or.inl (List.mem_cons_of_mem _ h2)
        · obtain ⟨e, he, hen⟩ := h2
          rcases List.mem_cons.mp he with h3 | h3
          · refine Or.inl ?_
            rw [← hen, h3]
            exact List.mem_cons_self _ _
          · exact Or.inr ⟨e, List.mem_append_left _ h3, hen⟩
    obtain ⟨Vf, hVf1, hVf2, hVf3, hVf4⟩ := ih h htx hcl2
    refine ⟨Vf, ?_, ?_, hVf3, hVf4⟩
    · intro v hvm
      exact hVf1 v (List.mem_cons_of_mem _ hvm)
    · intro e he
      rcases List.mem_cons.mp he with h1 | h1
      · rw [h1]
        exact hVf1 wallet (List.mem_cons_self _ _)
      · exact hVf2 e (List.mem_append_left _ h1)

/-- Queue-length band invariant of BFS: every queued path is at most one
longer than the head's path. -/
def QBounded (Q : List (String × List String)) : Prop :=
  match Q with
  | [] => True
  | f :: rest => ∀ e ∈ f :: rest, e.2.length ≤ f.2.length + 1

/-- BFS returns a shortest path: if the queue is sorted by path length
within a band of one, the target is unvisited, and some queue entry
`(u, q)` together with a `V`-avoiding walk `π` from `u` to the target
satisfies `q.length + π.length ≤ K + 1`, then any returned path has
length at most `K`. -/
theorem findPathLoop_shortest (adj : Adjacency) (target : String) :
    ∀ V Q, ∀ (K : ℕ) (p : List String),
    List.Pairwise (fun e f : String × List String =>
      e.2.length ≤ f.2.length) Q →
    QBounded Q →
    target ∉ V →
    (∃ e ∈ Q, e.1 ∉ V ∧ ∃ π, PathFrom adj e.1 target π ∧
      (∀ y ∈ π, y ∉ V) ∧ e.2.length + π.length ≤ K + 1) →
    findPathLoop adj target V Q = some p → p.length ≤ K := by
  intro V Q
  induction V, Q using findPathLoop.induct adj target with
  | case1 V =>
    intro K p _ _ _ _ h
    rw [findPathLoop] at h
    exact Option.noConfusion h
  | case2 V path rest =>
    intro K p hpw _ _ hwit h
    rw [findPathLoop, if_pos rfl] at h
    obtain rfl : path = p := by simpa using h
    obtain ⟨e, he, _, π, hπ, _, hlen⟩ := hwit
    have hmin : path.length ≤ e.2.length := by
      rcases List.mem_cons.mp he with h1 | h1
      · simp [h1]
      · exact (List.pairwise_cons.mp hpw).1 e h1
    have hπpos : 1 ≤ π.length := pathFrom_length_pos hπ
    omega
  | case3 V wallet path rest hnt hv ih =>
    intro K p hpw hbd htv hwit h
    rw [findPathLoop, if_neg hnt, if_pos hv] at h
    have hpw2 := (List.pairwise_cons.mp hpw).2
    have hheadle := (List.pairwise_cons.mp hpw).1
    have hbd2 : QBounded rest := by
      cases rest with
      | nil => trivial
      | cons f r2 =>
        intro e he
        have h1 : e.2.length ≤ path.length + 1 :=
          hbd e (List.mem_cons_of_mem _ he)
        have h2 : path.length ≤ f.2.length :=
          hheadle f (List.mem_cons_self _ _)
        omega
    have hwit2 : ∃ e ∈ rest, e.1 ∉ V ∧ ∃ π, PathFrom adj e.1 target π ∧
        (∀ y ∈ π, y ∉ V) ∧ e.2.length + π.length ≤ K + 1 := by
      obtain ⟨e, he, heV, π, hπ, hπV, hlen⟩ := hwit
      rcases List.mem_cons.mp he with h1 | h1
      · exact absurd (by rw [h1]; exact hv) heV
      · exact ⟨e, h1, heV, π, hπ, hπV, hlen⟩
    exact ih K p hpw2 hbd2 htv hwit2 h
  | case4 V wallet path rest hnt hv ih =>
    intro K p hpw hbd htv hwit h
    rw [findPathLoop, if_neg hnt, if_neg hv] at h
    have hpw2 := (List.pairwise_cons.mp hpw).2
    have hheadle := (List.pairwise_cons.mp hpw).1
    have hpushlen : ∀ e ∈ ((neighbors adj wallet).filter
        (fun n => decide (n ∉ wallet :: V))).map (fun n => (n, path ++ [n])),
        e.2.length = path.length + 1 := by
      intro e he
      obtain ⟨n, _, rfl⟩ := List.mem_map.mp he
      simp
    have hpwNQ : List.Pairwise (fun e f : String × List String =>
        e.2.length ≤ f.2.length)
        (rest ++ ((neighbors adj wallet).filter
          (fun n => decide (n ∉ wallet :: V))).map (fun n => (n, path ++ [n]))) := by
      rw [List.pairwise_append]
      refine ⟨hpw2, ?_, ?_⟩
      · rw [List.pairwise_map]
        have htriv : ∀ l : List String,
            List.Pairwise (fun a b : String =>
              ((fun n => (n, path ++ [n])) a).2.length ≤
                ((fun n => (n, path ++ [n])) b).2.length) l := by
          intro l
          induction l with
          | nil => exact List.Pairwise.nil
          | cons x xs ihl => exact List.Pairwise.cons (fun b _ => by simp) ihl
        exact htriv _
      · intro e he f hf
        have h1 : e.2.length ≤ path.length + 1 :=
          hbd e (List.mem_cons_of_mem _ he)
        have h2 := hpushlen f hf
        omega
    have hbdNQ : QBounded
        (rest ++ ((neighbors adj wallet).filter
          (fun n => decide (n ∉ wallet :: V))).map (fun n => (n, path ++ [n]))) := by
      cases hr : rest with
      | nil =>
        simp only [List.nil_append]
        cases hp2 : ((neighbors adj wallet).filter
            (fun n => decide (n ∉ wallet :: V))).map (fun n => (n, path ++ [n])) with
        | nil => trivial
        | cons f r2 =>
          intro e he
          have h1 := hpushlen e (hp2 ▸ he)
          have h2 := hpushlen f (hp2 ▸ List.mem_cons_self _ _)
          omega
      | cons f r2 =>
        intro e he
        have hfp : path.length ≤ f.2.length := by
          apply hheadle f
          rw [hr]
          exact List.mem_cons_self _ _
        rcases List.mem_cons.mp he with h0 | h0
        · rw [h0]
          omega
        · rcases List.mem_append.mp h0 with h1 | h1
          · have hrest : e ∈ rest := by
              rw [hr]
              exact List.mem_cons_of_mem _ h1
            have : e.2.length ≤ path.length + 1 :=
              hbd e (List.mem_cons_of_mem _ hrest)
            omega
          · have := hpushlen e h1
            omega
    have htx : target ∉ wallet :: V := by
      intro hc
      rcases List.mem_cons.mp hc with h1 | h1
      · exact hnt h1.symm
      · exact htv h1
    obtain ⟨e, he, heV, π, hπ, hπV, hlen⟩ := hwit
    have hminq : path.length ≤ e.2.length := by
      rcases List.mem_cons.mp he with h1 | h1
      · simp [h1]
      · exact hheadle e h1
    have hwitNQ : ∃ e2 ∈ (rest ++ ((neighbors adj wallet).filter
        (fun n => decide (n ∉ wallet :: V))).map (fun n => (n, path ++ [n]))),
        e2.1 ∉ wallet :: V ∧ ∃ π2, PathFrom adj e2.1 target π2 ∧
          (∀ y ∈ π2, y ∉ wallet :: V) ∧ e2.2.length + π2.length ≤ K + 1 := by
      by_cases hxπ : wallet ∈ π
      · obtain ⟨t, hst, hstlen, hstmem, hxnot⟩ :=
          pathFrom_suffix_of_mem hπ hxπ
        cases t with
        | nil =>
          exfalso
          have : wallet = target := by simpa using hst.2.1
          exact hnt this
        | cons y t2 =>
          have hystep : StepTo adj wallet y := pathFrom_cons_step hst
          have hyt : y ∈ y :: t2 := List.mem_cons_self _ _
          have hyπ : y ∈ π := hstmem y (List.mem_cons_of_mem _ hyt)
          have hyw : y ≠ wallet := fun hc => hxnot (hc ▸ hyt)
          have hynV : y ∉ wallet :: V := by
            intro hc
            rcases List.mem_cons.mp hc with h1 | h1
            · exact hyw h1
            · exact hπV y hyπ h1
          refine ⟨(y, path ++ [y]), ?_, by simpa using hynV, y :: t2,
            pathFrom_cons_tail hst, ?_, ?_⟩
          · refine List.mem_append_right _ ?_
            refine List.mem_map.mpr ⟨y, ?_, rfl⟩
            rw [List.mem_filter]
            exact ⟨hystep, by simpa using hynV⟩
          · intro z hz
            have hzπ : z ∈ π := hstmem z (List.mem_cons_of_mem _ hz)
            intro hc
            rcases List.mem_cons.mp hc with h1 | h1
            · exact hxnot (h1 ▸ hz)
            · exact hπV z hzπ h1
          · have h1 : (y :: t2).length + 1 ≤ π.length := by
              simpa using hstlen
            have h2 : ((y, path ++ [y]) : String × List String).2.length =
                path.length + 1 := by simp
            omega
      · have heu : e ∈ rest := by
          rcases List.mem_cons.mp he with h1 | h1
          · exfalso
            apply hxπ
            have : e.1 = wallet := by rw [h1]
            exact this ▸ pathFrom_head_mem hπ
          · exact h1
        refine ⟨e, List.mem_append_left _ heu, ?_, π, hπ, ?_, hlen⟩
        · intro hc
          rcases List.mem_cons.mp hc with h1 | h1
          · exact hxπ (h1 ▸ pathFrom_head_mem hπ)
          · exact heV h1
        · intro z hz
          intro hc
          rcases List.mem_cons.mp hc with h1 | h1
          · exact hxπ (h1 ▸ hz)
          · exact hπV z hz h1
    exact ih K p hpwNQ hbdNQ htx hwitNQ h

theorem findPath_none_iff_not_reachable (g : GraphState) (a b : String) :
    findPath g a b = none ↔ ¬ Reachable g.adjacencyList a b := by
  constructor
  · intro h hr
    obtain ⟨Vf, _, hVf2, hVf3, hVf4⟩ :=
      findPathLoop_none_closure g.adjacencyList b [] [(a, [a])] h
        (by simp) (by simp)
    have haVf : a ∈ Vf := hVf2 (a, [a]) (List.mem_cons_self _ _)
    exact hVf3 (reachable_mem_closed hr haVf hVf4)
  · intro hr
    cases hfp : findPath g a b with
    | none => rfl
    | some p =>
      exfalso
      apply hr
      apply pathFrom_reachable
      apply findPathLoop_some_path g.adjacencyList a b [] [(a, [a])] p _ hfp
      intro e he
      have : e = (a, [a]) := by simpa using he
      rw [this]
      exact pathFrom_singleton _ a

theorem areConnected_true_iff_reachable (g : GraphState) (a b : String) :
    areConnected g a b = true ↔ Reachable g.adjacencyList a b := by
  constructor
  · intro h
    apply areConnectedLoop_true_reachable g.adjacencyList a b [] [a] _ h
    intro w hw
    have : w = a := by simpa using hw
    rw [this]
    exact Relation.ReflTransGen.refl
  · intro hr
    cases hac : areConnected g a b with
    | true => rfl
    | false =>
      exfalso
      obtain ⟨Vf, _, hVf2, hVf3, hVf4⟩ :=
        areConnectedLoop_false_closure g.adjacencyList b [] [a] hac
          (by simp) (by simp)
      have haVf : a ∈ Vf := hVf2 a (List.mem_cons_self _ _)
      exact hVf3 (reachable_mem_closed hr haVf hVf4)

theorem findPath_some_shortest (g : GraphState) (a b : String)
    (p : List String) (h : findPath g a b = some p) :
    PathFrom g.adjacencyList a b p ∧
      ∀ q, PathFrom g.adjacencyList a b q → p.length ≤ q.length := by
  constructor
  · apply findPathLoop_some_path g.adjacencyList a b [] [(a, [a])] p _ h
    intro e he
    have : e = (a, [a]) := by simpa using he
    rw [this]
    exact pathFrom_singleton _ a
  · intro q hq
    apply findPathLoop_shortest g.adjacencyList b [] [(a, [a])] q.length p
      _ _ (by simp) _ h
    · exact List.pairwise_singleton _ _
    · intro e he
      have : e = (a, [a]) := by simpa using he
      rw [this]
      simp
    · refine ⟨(a, [a]), List.mem_cons_self _ _, by simp, q, hq, by simp, ?_⟩
      simp [Nat.add_comm]

/-! ### The `sourceCount` map counts occurrences -/

theorem bumpCount_lookup (m : List (String × ℕ)) (s k : String) :
    (bumpCount m s).lookup k =
      if k = s then some ((m.lookup k).getD 0 + 1) else m.lookup k := by
  induction m with
  | nil =>
    by_cases hks : k = s
    · rw [bumpCount, lookup_cons_unfold, if_pos hks, if_pos hks]
      simp [List.lookup_nil]
    · rw [bumpCount, lookup_cons_unfold, if_neg hks, if_neg hks,
        List.lookup_nil]
  | cons e rest ih =>
    obtain ⟨ek, ec⟩ := e
    rw [bumpCount]
    by_cases hes : ek = s
    · rw [if_pos hes]
      by_cases hks : k = s
      · have hke : k = ek := by rw [hks, hes]
        rw [lookup_cons_unfold, if_pos hke, if_pos hks,
          lookup_cons_unfold, if_pos hke]
        simp
      · have hke : ¬ k = ek := fun hc => hks (by rw [hc, hes])
        rw [lookup_cons_unfold, if_neg hke, if_neg hks,
          lookup_cons_unfold, if_neg hke]
    · rw [if_neg hes]
      by_cases hke : k = ek
      · have hks : ¬ k = s := fun hc => hes (by rw [← hke, hc])
        rw [lookup_cons_unfold, if_pos hke, if_neg hks,
          lookup_cons_unfold, if_pos hke]
      · rw [lookup_cons_unfold, if_neg hke, ih]
        by_cases hks : k = s
        · rw [if_pos hks, if_pos hks, lookup_cons_unfold, if_neg hke]
        · rw [if_neg hks, if_neg hks, lookup_cons_unfold, if_neg hke]

theorem bumpCount_keys (m : List (String × ℕ)) (s : String) :
    (bumpCount m s).map (fun e => e.1) =
      if s ∈ m.map (fun e => e.1) then m.map (fun e => e.1)
      else m.map (fun e => e.1) ++ [s] := by
  induction m with
  | nil => simp [bumpCount]
  | cons e rest ih =>
    obtain ⟨ek, ec⟩ := e
    by_cases hes : ek = s
    · simp only [bumpCount, if_pos hes]
      have : s ∈ ((ek, ec) :: rest).map (fun e => e.1) := by
        simp [hes.symm]
      rw [if_pos this]
      simp
    · simp only [bumpCount, if_neg hes]
      by_cases hsr : s ∈ rest.map (fun e => e.1)
      · have h1 : s ∈ ((ek, ec) :: rest).map (fun e => e.1) := by
          simp at hsr ⊢
          exact Or.inr hsr
        rw [if_pos h1]
        simp only [List.map_cons]
        rw [ih, if_pos hsr]
      · have h1 : s ∉ ((ek, ec) :: rest).map (fun e => e.1) := by
          simp at hsr ⊢
          exact ⟨fun hc => hes hc.symm, hsr⟩
        rw [if_neg h1]
        simp only [List.map_cons, List.cons_append]
        rw [ih, if_neg hsr]

theorem bumpCount_keys_nodup {m : List (String × ℕ)} (s : String)
    (h : (m.map (fun e => e.1)).Nodup) :
    ((bumpCount m s).map (fun e => e.1)).Nodup := by
  rw [bumpCount_keys]
  by_cases hs : s ∈ m.map (fun e => e.1)
  · rw [if_pos hs]; exact h
  · rw [if_neg hs]
    simp [List.nodup_append, h, hs]

theorem foldl_bumpCount_lookup (l : List String) :
    ∀ (m : List (String × ℕ)) (k : String),
    ((l.foldl bumpCount m).lookup k) =
      if k ∈ l ∨ (m.lookup k).isSome
      then some ((m.lookup k).getD 0 + l.count k) else none := by
  induction l with
  | nil =>
    intro m k
    simp only [List.foldl_nil, List.not_mem_nil, false_or, List.count_nil]
    cases h : m.lookup k with
    | none => simp [h]
    | some c => simp [h]
  | cons x xs ih =>
    intro m k
    simp only [List.foldl_cons]
    rw [ih (bumpCount m x) k]
    by_cases hkx : k = x
    · have hlk : (bumpCount m x).lookup k = some ((m.lookup k).getD 0 + 1) := by
        rw [bumpCount_lookup, if_pos hkx]
      rw [hlk]
      have h1 : k ∈ x :: xs := hkx ▸ List.mem_cons_self _ _
      have h2 : (x :: xs).count k = xs.count k + 1 := by
        rw [List.count_cons]
        simp [hkx]
      have hc1 : (k ∈ xs ∨ (some ((m.lookup k).getD 0 + 1)).isSome = true) := by
        simp
      have hc2 : (k ∈ x :: xs ∨ (m.lookup k).isSome = true) := Or.inl h1
      rw [if_pos hc1, if_pos hc2, h2]
      simp only [Option.getD_some, Option.some.injEq]
      omega
    · have hlk : (bumpCount m x).lookup k = m.lookup k := by
        rw [bumpCount_lookup, if_neg hkx]
      rw [hlk]
      have hxk : ¬ x = k := fun hc => hkx hc.symm
      have h2 : (x :: xs).count k = xs.count k := by
        rw [List.count_cons]
        simp [hkx, hxk]
      have hiff : (k ∈ x :: xs ∨ (m.lookup k).isSome = true) ↔
          (k ∈ xs ∨ (m.lookup k).isSome = true) := by
        simp [List.mem_cons, hkx]
      rw [h2]
      exact if_congr hiff.symm rfl rfl

theorem buildSourceCount_lookup (l : List String) (k : String) :
    (buildSourceCount l).lookup k =
      if k ∈ l then some (l.count k) else none := by
  unfold buildSourceCount
  rw [foldl_bumpCount_lookup]
  simp [List.lookup_nil]

theorem foldl_bumpCount_keys_nodup (l : List String) :
    ∀ (m : List (String × ℕ)), (m.map (fun e => e.1)).Nodup →
    (((l.foldl bumpCount m)).map (fun e => e.1)).Nodup := by
  induction l with
  | nil => intro m h; simpa using h
  | cons x xs ih =>
    intro m h
    simp only [List.foldl_cons]
    exact ih _ (bumpCount_keys_nodup x h)

theorem buildSourceCount_keys_nodup (l : List String) :
    ((buildSourceCount l).map (fun e => e.1)).Nodup :=
  foldl_bumpCount_keys_nodup l [] (by simp)

theorem lookup_of_mem_nodup {m : List (String × ℕ)} {k : String} {c : ℕ}
    (hmem : (k, c) ∈ m) (hnd : (m.map (fun e => e.1)).Nodup) :
    m.lookup k = some c := by
  induction m with
  | nil => simp at hmem
  | cons e rest ih =>
    obtain ⟨ek, ec⟩ := e
    rcases List.mem_cons.mp hmem with h1 | h1
    · obtain ⟨h2, h3⟩ := Prod.mk.injEq .. ▸ h1
      rw [lookup_cons_unfold, if_pos h2, h3]
    · have hnd2 : (ek :: rest.map (fun e => e.1)).Nodup := by simpa using hnd
      have hkek : k ≠ ek := by
        intro hc
        exact (List.nodup_cons.mp hnd2).1
          (List.mem_map.mpr ⟨(k, c), h1, by simp [hc]⟩)
      rw [lookup_cons_unfold, if_neg hkek]
      exact ih h1 (List.nodup_cons.mp hnd2).2

theorem mem_buildSourceCount_count {l : List String} {k : String} {c : ℕ}
    (hmem : (k, c) ∈ buildSourceCount l) : c = l.count k := by
  have h1 := lookup_of_mem_nodup hmem (buildSourceCount_keys_nodup l)
  rw [buildSourceCount_lookup] at h1
  by_cases hk : k ∈ l
  · rw [if_pos hk] at h1
    simpa using h1.symm
  · rw [if_neg hk] at h1
    exact Option.noConfusion h1

theorem lookup_some_mem_keys_generic {β : Type} :
    ∀ {m : List (String × β)} {k : String} {c : β},
    m.lookup k = some c → k ∈ m.map (fun e => e.1) := by
  intro m
  induction m with
  | nil => intro k c h; rw [List.lookup_nil] at h; exact Option.noConfusion h
  | cons e rest ih =>
    intro k c h
    obtain ⟨ek, ec⟩ := e
    rw [lookup_cons_unfold] at h
    by_cases hke : k = ek
    · simp [hke]
    · rw [if_neg hke] at h
      simp only [List.map_cons, List.mem_cons]
      exact Or.inr (ih h)

theorem mem_buildSourceCount_keys (l : List String) (k : String) :
    k ∈ (buildSourceCount l).map (fun e => e.1) ↔ k ∈ l := by
  constructor
  · intro h
    obtain ⟨e, he, hek⟩ := List.mem_map.mp h
    obtain ⟨ek, ec⟩ := e
    have hlk := lookup_of_mem_nodup he (buildSourceCount_keys_nodup l)
    rw [buildSourceCount_lookup] at hlk
    by_cases hk : ek ∈ l
    · simpa using hek ▸ hk
    · rw [if_neg hk] at hlk
      exact Option.noConfusion hlk
  · intro h
    have hlk := buildSourceCount_lookup l k
    rw [if_pos h] at hlk
    exact lookup_some_mem_keys_generic hlk

theorem foldl_add25_eq (m : List (String × ℕ)) :
    ∀ acc : ℕ, m.foldl (fun score e => if 3 ≤ e.2 then score + 25 else score) acc =
      acc + 25 * (m.filter (fun e => decide (3 ≤ e.2))).length := by
  induction m with
  | nil => intro acc; simp
  | cons e rest ih =>
    intro acc
    simp only [List.foldl_cons]
    by_cases hp : 3 ≤ e.2
    · rw [if_pos hp, ih]
      have : (List.filter (fun e => decide (3 ≤ e.2)) (e :: rest)).length =
          (List.filter (fun e => decide (3 ≤ e.2)) rest).length + 1 := by
        simp [List.filter, hp]
      rw [this]
      ring
    · rw [if_neg hp, ih]
      have : (List.filter (fun e => decide (3 ≤ e.2)) (e :: rest)).length =
          (List.filter (fun e => decide (3 ≤ e.2)) rest).length := by
        simp [List.filter, hp]
      rw [this]

theorem filter_keys_length (m : List (String × ℕ)) (p : String → Bool) :
    (m.filter (fun e => p e.1)).length =
      ((m.map (fun e => e.1)).filter p).length := by
  induction m with
  | nil => simp
  | cons e rest ih =>
    by_cases hp : p e.1
    · simp [List.filter, hp, List.filter_cons, ih]
    · simp [List.filter, hp, List.filter_cons, ih]

/-- The shared-funding block of `analyzeCluster` contributes exactly 25
points per distinct funding source whose number of occurrences across
the cluster members' funding-source lists (with multiplicity) is at
least 3. -/
theorem clusterFundingScore_eq (clusterNodes : List WalletNode) :
    clusterFundingScore clusterNodes =
      25 * ((allFundingSources clusterNodes).dedup.filter
        (fun s => decide (3 ≤ (allFundingSources clusterNodes).count s))).length := by
  unfold clusterFundingScore
  rw [foldl_add25_eq]
  simp only [Nat.zero_add]
  congr 1
  set l := allFundingSources clusterNodes with hl
  have hcongr : (buildSourceCount l).filter (fun e => decide (3 ≤ e.2)) =
      (buildSourceCount l).filter (fun e => decide (3 ≤ l.count e.1)) := by
    apply List.filter_congr
    intro e he
    obtain ⟨k, c⟩ := e
    have := mem_buildSourceCount_count he
    simp only [this]
  rw [hcongr, filter_keys_length (buildSourceCount l)
    (fun s => decide (3 ≤ l.count s))]
  have hperm : List.Perm ((buildSourceCount l).map (fun e => e.1)) l.dedup := by
    rw [List.perm_ext_iff_of_nodup (buildSourceCount_keys_nodup l)
      (List.nodup_dedup l)]
    intro a
    rw [mem_buildSourceCount_keys, List.mem_dedup]
  exact (hperm.filter _).length_eq

/-! ### Claim theorems -/

/-- Claim C1: the spec says `getDiamondRank(d)` is Diamond iff d ≥ 180,
Platinum iff 90 ≤ d < 180, Gold iff 60 ≤ d < 90, Silver iff 30 ≤ d < 60,
Bronze iff 7 ≤ d < 30, Paper iff d < 7, agreeing with `getMultiplier`.
The code disagrees: `getDiamondRank` compares against the tier `maxDays`
fields, where `DIAMOND.maxDays` is `Infinity`, so a 200-day hold ranks
Platinum (not Diamond) while `getMultiplier 200` is the Diamond
multiplier 3.5, and a 10-day hold ranks Paper while `getMultiplier 10`
is the Bronze multiplier 1.5.  This theorem evaluates the code at these
failing inputs, exhibiting the divergence (the `DiamondRank` doc
comments and `getMultiplier` itself show the spec is the intent). -/
theorem C1_rank_multiplier_mismatch :
    getDiamondRank 200 = DiamondRank.Platinum ∧ getMultiplier 200 = 7/2 ∧
    getDiamondRank 10 = DiamondRank.Paper ∧ getMultiplier 10 = 3/2 := by
  refine ⟨?_, ?_, ?_, ?_⟩ <;>
    norm_num [getDiamondRank, getMultiplier, geMaxDays, MULTIPLIERS]

/-- Claim C2 as stated is false: on the history
`[{holdDays:200}, {holdDays:5, profitLoss:50}]` the code returns 5, not
4, because the quick-flip penalty requires `holdDays < 1` and the second
launch was held 5 days. -/
theorem C2_counterexample :
    calculateGlobalScore
      [⟨"launch1", 200, 100, false, false⟩,
       ⟨"launch2", 5, 50, false, false⟩] = 5 ∧
    ¬ calculateGlobalScore
      [⟨"launch1", 200, 100, false, false⟩,
       ⟨"launch2", 5, 50, false, false⟩] = 4 := by
  constructor <;> norm_num [calculateGlobalScore, launchScoreDelta]

/-- Claim C2, amended: with a second launch held 5 days at any positive
profit the score is 5 (no quick-flip penalty, since the penalty applies
only when `holdDays < 1`); the −1 penalty does fire when the second
launch is sold within one day at a profit, giving 4. -/
theorem C2_amended (pl : ℚ) (hpl : 0 < pl) :
    calculateGlobalScore
      [⟨"launch1", 200, 100, false, false⟩,
       ⟨"launch2", 5, pl, false, false⟩] = 5 ∧
    calculateGlobalScore
      [⟨"launch1", 200, 100, false, false⟩,
       ⟨"launch2", 1/2, pl, false, false⟩] = 4 := by
  constructor <;> norm_num [calculateGlobalScore, launchScoreDelta, hpl]

/-- Witness for C2_amended at `profitLoss = 50`. -/
theorem C2_amended_witness :
    calculateGlobalScore
      [⟨"launch1", 200, 100, false, false⟩,
       ⟨"launch2", 5, 50, false, false⟩] = 5 :=
  (C2_amended 50 (by norm_num)).1

/-- Claim C3: the selected action follows the priority order — any
`known_bundler` flag forces `block`; otherwise confidence ≥ 90 gives
`block`, ≥ 70 `reduce_rewards`, ≥ 50 `delay_rewards`, ≥ 30 `flag`, else
`none` — and the penalty mirrors the action, `reduce_rewards` carrying
the 50% reduction and `delay_rewards` the 30-day delay. -/
theorem C3_action_priority (confidence : ℕ) (flags : List BundleFlag) :
    (determineAction confidence flags = .block ↔
      (flags.any (fun f => decide (f.type = BundleFlagType.known_bundler)) = true ∨
        90 ≤ confidence)) ∧
    (determineAction confidence flags = .reduce_rewards ↔
      (flags.any (fun f => decide (f.type = BundleFlagType.known_bundler)) = false ∧
        70 ≤ confidence ∧ confidence < 90)) ∧
    (determineAction confidence flags = .delay_rewards ↔
      (flags.any (fun f => decide (f.type = BundleFlagType.known_bundler)) = false ∧
        50 ≤ confidence ∧ confidence < 70)) ∧
    (determineAction confidence flags = .flag ↔
      (flags.any (fun f => decide (f.type = BundleFlagType.known_bundler)) = false ∧
        30 ≤ confidence ∧ confidence < 50)) ∧
    (determineAction confidence flags = .none ↔
      (flags.any (fun f => decide (f.type = BundleFlagType.known_bundler)) = false ∧
        confidence < 30)) ∧
    (∀ pen, determinePenalty (determineAction confidence flags) = some pen →
      pen.action = determineAction confidence flags) ∧
    (determinePenalty (determineAction confidence flags) = none ↔
      (determineAction confidence flags = .flag ∨
        determineAction confidence flags = .none)) ∧
    (∀ pen, determinePenalty .reduce_rewards = some pen →
      pen.rewardReductionPercent = some 50) ∧
    (∀ pen, determinePenalty .delay_rewards = some pen →
      pen.rewardDelayDays = some 30) := by
  have hpen : ∀ a : BundleAction, (∀ pen, determinePenalty a = some pen →
      pen.action = a) ∧ (determinePenalty a = none ↔ (a = .flag ∨ a = .none)) := by
    intro a
    cases a <;> simp [determinePenalty]
  by_cases hkb : flags.any (fun f => decide (f.type = BundleFlagType.known_bundler)) = true
  · have ha : determineAction confidence flags = .block := by
      rw [determineAction, if_pos hkb]
    refine ⟨?_, ?_, ?_, ?_, ?_, ?_, ?_, ?_, ?_⟩ <;>
      simp [ha, hkb, determinePenalty, BUNDLER_REWARD_REDUCTION,
        BUNDLER_REWARD_DELAY_DAYS]
    norm_num
  · have hkb2 : flags.any (fun f => decide (f.type = BundleFlagType.known_bundler)) = false :=
      Bool.eq_false_iff.mpr hkb
    have ha : determineAction confidence flags =
        (if 90 ≤ confidence then .block
         else if 70 ≤ confidence then .reduce_rewards
         else if 50 ≤ confidence then .delay_rewards
         else if 30 ≤ confidence then .flag
         else .none) := by
      rw [determineAction, if_neg hkb]
    refine ⟨?_, ?_, ?_, ?_, ?_, ?_, ?_, ?_, ?_⟩ <;>
      (try rw [ha]) <;>
      (try split_ifs) <;>
      simp_all [determinePenalty, BUNDLER_REWARD_REDUCTION,
        BUNDLER_REWARD_DELAY_DAYS] <;>
      first
        | omega
        | norm_num

/-- Witness for C3 at confidence 75 with no flags. -/
theorem C3_witness : determineAction 75 [] = BundleAction.reduce_rewards :=
  (C3_action_priority 75 []).2.1.mpr ⟨rfl, by norm_num, by norm_num⟩

/-- Claim C4: the computed confidence is always in [0, 100], and every
analysis produced by an evaluation has `isBundled = true` exactly when
its confidence is at least the threshold 70. -/
theorem C4_confidence_isBundled :
    (∀ flags : List BundleFlag, 0 ≤ calculateConfidence flags ∧
      calculateConfidence flags ≤ 100) ∧
    (∀ (kb : List String) (sig lid : String) (buys : List BuyRecord)
      (tx : Option ParsedTx) (funding : FundingAnalysisResult)
      (age : ℚ) (nwb : ℕ),
      ((analyzeTransaction kb sig lid buys tx funding age nwb).isBundled = true ↔
        70 ≤ (analyzeTransaction kb sig lid buys tx funding age nwb).confidence)) := by
  constructor
  · intro flags
    refine ⟨Nat.zero_le _, ?_⟩
    rw [calculateConfidence]
    split_ifs
    · omega
    · exact Nat.min_le_left _ _
  · intro kb sig lid buys tx funding age nwb
    cases tx with
    | none => simp [analyzeTransaction, createAnalysis]
    | some t =>
      simp only [analyzeTransaction, createAnalysis]
      exact decide_eq_true_iff

/-- Witness for C4 at the empty flag list. -/
theorem C4_witness : calculateConfidence [] ≤ 100 :=
  (C4_confidence_isBundled.1 []).2

/-- The number of distinct cluster members whose funding-source list
contains `s` — the reading asserted by claim C5, under which a member
wallet counts once per source regardless of multiplicity. -/
def distinctMembersSharing (clusterNodes : List WalletNode) (s : String) : ℕ :=
  (clusterNodes.filter (fun n => decide (s ∈ n.fundingSources))).length

/-- The shared-funding contribution under the claim reading of C5: +25
per source shared by at least 3 distinct members. -/
def claimFundingScore (clusterNodes : List WalletNode) : ℕ :=
  25 * ((allFundingSources clusterNodes).dedup.filter
    (fun s => decide (3 ≤ distinctMembersSharing clusterNodes s))).length

/-- Claim C5 as stated is false: in the cluster built by
`addWallet("a", 0, ["s","s","s"], [])` and analysed over the members
`["a","s"]`, the single member wallet `"a"` lists the source `"s"`
three times, so the code adds the +25 (total suspicion 30 age + 25
funding = 55) although only one distinct member shares the source, so
the claim predicts no funding contribution (score 30). -/
theorem C5_counterexample :
    (analyzeCluster (addWallet initialGraph "a" 0 ["s","s","s"] [])
      ["a","s"] "cluster_0" 0).suspicionScore = 55 ∧
    claimFundingScore (clusterNodesOf
      (addWallet initialGraph "a" 0 ["s","s","s"] []) ["a","s"]) = 0 ∧
    clusterFundingScore (clusterNodesOf
      (addWallet initialGraph "a" 0 ["s","s","s"] []) ["a","s"]) = 25 := by
  have hnodes : clusterNodesOf
      (addWallet initialGraph "a" 0 ["s","s","s"] []) ["a","s"] =
      [{ address := "a", firstSeen := 0, transactionCount := 1,
         totalVolume := 0, fundingSources := ["s","s","s"],
         fundingTargets := [], buyTimestamps := [] }] := by decide
  refine ⟨?_, ?_, ?_⟩
  · have h : (analyzeCluster (addWallet initialGraph "a" 0 ["s","s","s"] [])
        ["a","s"] "cluster_0" 0).suspicionScore =
        min 100 (clusterAgeScore (clusterNodesOf
            (addWallet initialGraph "a" 0 ["s","s","s"] []) ["a","s"]) 0 +
          clusterFundingScore (clusterNodesOf
            (addWallet initialGraph "a" 0 ["s","s","s"] []) ["a","s"]) +
          clusterTimingScore (clusterNodesOf
            (addWallet initialGraph "a" 0 ["s","s","s"] []) ["a","s"]) +
          clusterSizeScore ["a","s"]) := rfl
    rw [h, hnodes]
    have hage : clusterAgeScore
        [{ address := "a", firstSeen := 0, transactionCount := 1,
           totalVolume := 0, fundingSources := ["s","s","s"],
           fundingTargets := [], buyTimestamps := [] }] 0 = 30 := by
      rw [clusterAgeScore]
      rw [if_pos]
      rw [clusterAvgAgeHours]
      norm_num
    rw [hage]
    decide
  · rw [hnodes]
    decide
  · rw [hnodes]
    decide

/-- Claim C5, amended: the +25 is added once per funding source whose
total number of occurrences across the cluster members' funding-source
lists, counted with multiplicity, is at least 3 (a member contributes
once per occurrence, not once per source), still uncapped per source. -/
theorem C5_amended_occurrence_count (g : GraphState) (wallets : List String)
    (clusterId : String) (now : ℚ) :
    (analyzeCluster g wallets clusterId now).suspicionScore =
      min 100 (clusterAgeScore (clusterNodesOf g wallets) now +
        25 * ((allFundingSources (clusterNodesOf g wallets)).dedup.filter
          (fun s => decide (3 ≤
            (allFundingSources (clusterNodesOf g wallets)).count s))).length +
        clusterTimingScore (clusterNodesOf g wallets) +
        clusterSizeScore wallets) := by
  have h : (analyzeCluster g wallets clusterId now).suspicionScore =
      min 100 (clusterAgeScore (clusterNodesOf g wallets) now +
        clusterFundingScore (clusterNodesOf g wallets) +
        clusterTimingScore (clusterNodesOf g wallets) +
        clusterSizeScore wallets) := rfl
  rw [h, clusterFundingScore_eq]

/-- Claim C6: when the transaction signature does not resolve, the
evaluation returns a zero-confidence, unflagged, no-action analysis
(rather than failing): `isBundled = false`, `confidence = 0`, no flags,
empty `relatedWallets`, action `none`, no penalty. -/
theorem C6_unresolved_tx (kb : List String) (sig lid : String)
    (buys : List BuyRecord) (funding : FundingAnalysisResult)
    (age : ℚ) (nwb : ℕ) :
    analyzeTransaction kb sig lid buys Option.none funding age nwb =
      { transactionSignature := sig, launchId := lid, isBundled := false,
        confidence := 0, flags := [], relatedWallets := [],
        fundingSource := Option.none, action := BundleAction.none,
        penaltyApplied := Option.none } := rfl

/-- Claim C7: for every graph state and wallets, `findPath` returns
`null` exactly when `areConnected` is false, and every returned path is
a genuine walk from `a` to `b` in the adjacency view whose length is
minimal among all such walks (BFS shortest distance). -/
theorem C7_findPath_areConnected (g : GraphState) (a b : String) :
    (findPath g a b = none ↔ areConnected g a b = false) ∧
    (∀ p, findPath g a b = some p → PathFrom g.adjacencyList a b p ∧
      ∀ q, PathFrom g.adjacencyList a b q → p.length ≤ q.length) := by
  constructor
  · rw [findPath_none_iff_not_reachable]
    constructor
    · intro h
      cases hac : areConnected g a b with
      | false => rfl
      | true => exact absurd ((areConnected_true_iff_reachable g a b).mp hac) h
    · intro h hr
      have := (areConnected_true_iff_reachable g a b).mpr hr
      rw [h] at this
      exact Bool.noConfusion this
  · intro p hp
    exact findPath_some_shortest g a b p hp

/-- Witness for C7: on the two-wallet graph with one edge between `"a"`
and `"b"`, `findPath` returns `["a","b"]`, which the claim theorem turns
into a shortest genuine path. -/
theorem C7_witness :
    PathFrom (addEdge initialGraph "a" "b" EdgeType.transfer 0 0).adjacencyList
      "a" "b" ["a", "b"] := by
  have h : findPath (addEdge initialGraph "a" "b" EdgeType.transfer 0 0)
      "a" "b" = some ["a", "b"] := by
    show findPathLoop [("a", ["b"]), ("b", ["a"])] "b" [] [("a", ["a"])] =
      some ["a", "b"]
    rw [findPathLoop.eq_def]
    norm_num [neighbors, lookup_cons_unfold]
    rw [findPathLoop.eq_def]
    decide
  exact ((C7_findPath_areConnected
    (addEdge initialGraph "a" "b" EdgeType.transfer 0 0) "a" "b").2
      ["a", "b"] h).1

/-- Claim C8: `calculateRewards` computes exactly
`baseRewards = (balance / 10^9) × remaining × 0.01`,
`diamondBonus = baseRewards × (holdMultiplier − 1)`,
`loyaltyBonus = (baseRewards + diamondBonus) × (0.1 × globalHolderScore)`,
`totalRewards` their sum; and a holder with `rewardsClaimed = 0` is
always claimable, regardless of `lastActivityAt`. -/
theorem C8_calculateRewards_spec (holder : Holder) (pool : RewardPool)
    (now : ℚ) :
    (calculateRewards holder pool now).baseRewards =
      holder.balance / 1000000000 * pool.remaining * (1/100) ∧
    (calculateRewards holder pool now).diamondBonus =
      (calculateRewards holder pool now).baseRewards *
        (getMultiplier holder.holdDurationDays - 1) ∧
    (calculateRewards holder pool now).loyaltyBonus =
      ((calculateRewards holder pool now).baseRewards +
        (calculateRewards holder pool now).diamondBonus) *
          ((1/10) * holder.globalHolderScore) ∧
    (calculateRewards holder pool now).totalRewards =
      (calculateRewards holder pool now).baseRewards +
        (calculateRewards holder pool now).diamondBonus +
          (calculateRewards holder pool now).loyaltyBonus ∧
    (holder.rewardsClaimed = 0 →
      (calculateRewards holder pool now).claimable = true) := by
  refine ⟨rfl, rfl, ?_, rfl, ?_⟩
  · simp only [calculateRewards]
    ring
  · intro h
    simp [calculateRewards, h]

/-- Witness for C8: a holder with `rewardsClaimed = 0` is claimable. -/
theorem C8_witness :
    (calculateRewards
      { wallet := "w", launchId := "l", balance := 500, costBasis := 1,
        firstBuyAt := 0, lastActivityAt := 0, holdDurationDays := 10,
        diamondMultiplier := 1, rewardsAccrued := 0, rewardsClaimed := 0,
        diamondRank := DiamondRank.Paper, globalHolderScore := 2 }
      { launchId := "l", totalPool := 1000, distributed := 0,
        remaining := 1000, lastDistributionAt := 0 } 123456).claimable = true :=
  (C8_calculateRewards_spec
    { wallet := "w", launchId := "l", balance := 500, costBasis := 1,
      firstBuyAt := 0, lastActivityAt := 0, holdDurationDays := 10,
      diamondMultiplier := 1, rewardsAccrued := 0, rewardsClaimed := 0,
      diamondRank := DiamondRank.Paper, globalHolderScore := 2 }
    { launchId := "l", totalPool := 1000, distributed := 0,
      remaining := 1000, lastDistributionAt := 0 } 123456).2.2.2.2 rfl

/-- Claim C9: `recordBuy` on a wallet with no node is a complete no-op —
the graph state is returned unchanged, so the buy volume and timestamp
are silently discarded. -/
theorem C9_recordBuy_unknown_noop (g : GraphState) (w : String)
    (amount timestamp : ℚ) (h : g.nodes.lookup w = none) :
    recordBuy g w amount timestamp = g := by
  rw [recordBuy, h]

/-- Witness for C9 on the empty graph. -/
theorem C9_witness : recordBuy initialGraph "w" 1 2 = initialGraph :=
  C9_recordBuy_unknown_noop initialGraph "w" 1 2 rfl

/-- Claim C10: for every graph state and every wallet `a`, including
wallets never added, `areConnected a a` is true and `findPath a a` is
the one-element path `[a]`. -/
theorem C10_self_connectivity (g : GraphState) (a : String) :
    areConnected g a a = true ∧ findPath g a a = some [a] := by
  constructor
  · rw [areConnected, areConnectedLoop]
    simp
  · rw [findPath, findPathLoop]
    simp
